import Mathlib

/-!
Verification of the parallel-vectorize dispatcher and work-stealing scheduler
of `parallel_vectorize.py`.  The Python file is a code generator
(llvm_cbuilder): the definitions below embed the behaviour of the *generated*
program.  Machine integers (`C.intp`, `C.int`) are modelled by `Nat`; all
index arithmetic of a dispatch stays inside `[0, N + 1]`, far below the
`intp` overflow boundary, so no modular reduction arises.
-/

namespace ParallelVectorize

/-- WorkQueue (source lines 24-32): `next` and `last` delimit the half-open
range of unclaimed indices owned by one worker, `lock` is the spinlock word
(0 = unlocked, 1 = locked). -/
structure WorkQueue where
  next : ℕ
  last : ℕ
  lock : ℕ
  deriving DecidableEq

/-- Chunk size computed by `ParallelUFunc.body` (lines 142-148):
`ChunkSize = N / num_thread` (integer division), replaced by 1 when the
division yields 0. -/
def chunkSize (N T : ℕ) : ℕ := if N / T = 0 then 1 else N / T

/-- Effective thread count after the fallback of `ParallelUFunc.body`
(lines 145-148): when `N / T = 0` the local `num_thread` variable is
reassigned to `N`, otherwise it keeps the compiled count `T`. -/
def effThreads (N T : ℕ) : ℕ := if N / T = 0 then N else T

/-- Queue left in slot `i` by `_populate_workqueues` (lines 179-190): the
loop stores `next = i * chunk`, `last = (i + 1) * chunk`, `lock = 0`, and a
trailing assignment overwrites the last slot's `last` with `N`. -/
def plannedQueue (N chunk T' : ℕ) (i : ℕ) : WorkQueue :=
  if i = T' - 1 then ⟨i * chunk, N, 0⟩ else ⟨i * chunk, (i + 1) * chunk, 0⟩

/-- `_populate_workqueues` (lines 179-190).  The loop initialises slots
`0 .. num_thread - 1`; afterwards `workqueues[num_thread - 1].last` is
assigned unconditionally.  When `num_thread = 0` (the `N = 0` fallback) that
index is `-1`: a store outside the array, modelled here by `none`. -/
def populate_workqueues (N chunk T' : ℕ) : Option (List WorkQueue) :=
  if T' = 0 then none
  else some ((List.range T').map (plannedQueue N chunk T'))

/-- Thread ids created by `ParallelUFuncPosixMixin._dispatch_worker`
(lines 206-221): one `pthread_create` per iteration `i < num_thread` of the
launch loop, joined in the same order. -/
def spawnedThreads (T' : ℕ) : List ℕ := List.range T'

/-- End-of-run consistency check of `ParallelUFunc.body` (lines 161-174):
the generated code sums `contexts[t].completed` for `t in range(ThreadCount)`
— the *compiled* thread count — although `_populate_context` (lines 192-201)
initialised only the first `num_thread` contexts.  A slot `t ≥ num_thread`
still holds whatever the stack frame contained, abstracted by `uninit t`. -/
def debugCheckTotal (ThreadCount T' : ℕ) (completed uninit : ℕ → ℕ) : ℕ :=
  ∑ t ∈ Finset.range ThreadCount, (if t < T' then completed t else uninit t)

/-- The check passes when the summed counters equal `N`; otherwise the
generated code prints an error and executes `unreachable()` (fatal). -/
def debugCheckPasses (ThreadCount T' N : ℕ) (completed uninit : ℕ → ℕ) : Prop :=
  debugCheckTotal ThreadCount T' completed uninit = N

/-- Value-level model of `atomic_cmpxchg` on a lock word: result is the pair
(observed old value, new stored value). -/
def atomic_cmpxchg (state expected desired : ℕ) : ℕ × ℕ :=
  if state = expected then (state, desired) else (state, state)

/-- WorkQueue.Unlock (lines 50-62): compare-and-exchange locked (1) to
unlocked (0) with release ordering; when the observed prior value differs
from 1 the generated code executes `unreachable()`, killing the program —
modelled by `none`. -/
def unlock (lockState : ℕ) : Option ℕ :=
  let r := atomic_cmpxchg lockState 1 0
  if r.1 = 1 then some r.2 else none

/-- Element address computed by `get_offset` in `UFuncCoreGeneric._do_work`
(line 380): the address of `B[item * S]`, i.e. base pointer plus `item`
times the byte stride.  Strides are signed, so addresses live in `ℤ`. -/
def get_offset (base stride : ℤ) (item : ℕ) : ℤ := base + (item : ℤ) * stride

/-- UFuncCoreGeneric._do_work (lines 376-392), as generated: the loop over
`ARGTYS` appends to `indata` the value loaded from
`get_offset(args[k], steps[k])`, the output pointer is computed from slot
`nargs` (the entry right after the inputs), and the kernel result is stored
there.  `load` abstracts a memory read; the result is the pair
(store address, stored value). -/
def do_work {V : Type} (load : ℤ → V) (func : List V → V)
    (args steps : ℕ → ℤ) (nargs item : ℕ) : ℤ × V :=
  let indata := (List.range nargs).foldl
    (fun acc k => acc ++ [load (get_offset (args k) (steps k) item)]) []
  (get_offset (args nargs) (steps nargs) item, func indata)

/-- Restatement of the specification's §4.4 in its own words: for each input
argument `k` load from `base[k] + i * stride[k]`, invoke the kernel on the
loaded values in argument order, and store at
`output_base + i * output_stride`, the output pointer and stride being the
entries immediately following the inputs. -/
def do_work_spec {V : Type} (load : ℤ → V) (func : List V → V)
    (args steps : ℕ → ℤ) (nargs item : ℕ) : ℤ × V :=
  (args nargs + (item : ℤ) * steps nargs,
   func ((List.range nargs).map (fun k => load (args k + (item : ℤ) * steps k))))

/-- Atomic events of a worker thread, at the granularity of the generated
instructions that touch a queue, invoke the kernel, or bump `completed`. -/
inductive Ev where
  | lockAcq | lockRel | readNext | writeNext | readLast | writeLast
  | invokeKernel | incCompleted
  deriving DecidableEq

/-- Event trace of one claiming iteration of `UFuncCore._do_workqueue`
(lines 254-268): Lock; item := next; next += 1; last := last; Unlock; then
`_do_work` and the completed increment happen after the release. -/
def drainIterEvents : List Ev :=
  [.lockAcq, .readNext, .writeNext, .readLast, .lockRel, .invokeKernel,
   .incCompleted]

/-- Event trace of the final iteration of `_do_workqueue` (the one that
breaks out of the loop): same critical section, no kernel invocation. -/
def drainExitEvents : List Ev :=
  [.lockAcq, .readNext, .writeNext, .readLast, .lockRel]

/-- Event trace of `_do_work_stealing_check` (lines 299-319) when work was
found: Lock; compare next with last; last -= 1; item := last; Unlock; then
the kernel invocation and the completed increment after the release. -/
def stealHitEvents : List Ev :=
  [.lockAcq, .readNext, .readLast, .writeLast, .readLast, .lockRel,
   .invokeKernel, .incCompleted]

/-- Event trace of `_do_work_stealing_check` (lines 321-323) when the peer
queue was empty: the lock is released without claiming. -/
def stealMissEvents : List Ev := [.lockAcq, .readNext, .readLast, .lockRel]

/-- Number of locks held just before executing event `k` of a trace. -/
def heldBefore (tr : List Ev) (k : ℕ) : ℕ :=
  (tr.take k).count Ev.lockAcq - (tr.take k).count Ev.lockRel

/-- Events that read or write the queue fields `next` and `last`. -/
def isQueueFieldOp : Ev → Bool
  | .readNext | .writeNext | .readLast | .writeLast => true
  | _ => false

/-- Control state of one worker executing `UFuncCore.body` (lines 236-247):
first drain the own queue (`_do_workqueue`), then sweep the queue array
stealing (`_do_work_stealing`).  `steal i p` means the current sweep is
about to examine slot `i`, with `p` recording whether this sweep has stolen
anything (the `steal_continue` flag); `done` means the thread returned. -/
inductive Phase where
  | drain : Phase
  | steal (i : ℕ) (progress : Bool) : Phase
  | done : Phase
  deriving DecidableEq

/-- Global state of one dispatch call.  `Q` is the size of the workqueue
array — the compiled `ThreadCount`, which is also the sweep bound
`common.num_thread` stored at line 134 *before* the fallback reduction —
and `W` is the number of worker threads actually spawned (`num_thread`
after the fallback).  `claims w` is the multiset of indices on which worker
`w` has invoked the kernel; its cardinality is the worker's `completed`
counter.  Each transition of `Step` below is one lock-protected critical
section of the generated code together with the thread-local actions that
follow it before the next lock; by the lock discipline (see
`no_kernel_invocation_under_lock`) the critical sections are the only
accesses to `next` and `last`, so interleaving whole critical sections is
faithful to the generated code. -/
structure SchedState (Q W : ℕ) where
  queues : Fin Q → WorkQueue
  phase : Fin W → Phase
  claims : Fin W → Multiset ℕ

/-- Effect of one claiming drain iteration by worker `w` (lines 254-268):
under the lock, `item := next; next += 1`; after the release the kernel
runs on `item` and `completed` is bumped. -/
def drainClaim {Q W : ℕ} (s : SchedState Q W) (w : Fin W) (hw : w.val < Q) :
    SchedState Q W :=
  { queues := Function.update s.queues ⟨w.val, hw⟩
      { s.queues ⟨w.val, hw⟩ with next := (s.queues ⟨w.val, hw⟩).next + 1 }
    phase := s.phase
    claims := Function.update s.claims w
      (s.claims w + {(s.queues ⟨w.val, hw⟩).next}) }

/-- Effect of the final drain iteration (lines 254-265): `next` is
incremented exactly as in a claiming iteration, the snapshot shows
`item ≥ last`, the loop breaks without invoking the kernel, and the worker
enters the stealing sweep at slot 0 with `steal_continue` cleared. -/
def drainBreak {Q W : ℕ} (s : SchedState Q W) (w : Fin W) (hw : w.val < Q) :
    SchedState Q W :=
  { queues := Function.update s.queues ⟨w.val, hw⟩
      { s.queues ⟨w.val, hw⟩ with next := (s.queues ⟨w.val, hw⟩).next + 1 }
    phase := Function.update s.phase w (.steal 0 false)
    claims := s.claims }

/-- Sweep advance without stealing: slot `i` is the worker itself
(line 292) or a peer observed empty under its lock (lines 321-323). -/
def stealAdvance {Q W : ℕ} (s : SchedState Q W) (w : Fin W) (i : ℕ)
    (p : Bool) : SchedState Q W :=
  { s with phase := Function.update s.phase w (.steal (i + 1) p) }

/-- Successful steal from slot `j` (lines 307-319): under the peer's lock
`last -= 1` and the new `last` is the claimed item; after the release the
kernel runs on it, `completed` is bumped and `steal_continue` is set. -/
def stealClaim {Q W : ℕ} (s : SchedState Q W) (w : Fin W) (j : Fin Q) :
    SchedState Q W :=
  { queues := Function.update s.queues j
      { s.queues j with last := (s.queues j).last - 1 }
    phase := Function.update s.phase w (.steal (j.val + 1) true)
    claims := Function.update s.claims w
      (s.claims w + {(s.queues j).last - 1}) }

/-- End of a sweep that stole something: the outer loop of
`_do_work_stealing` (lines 277-285) runs another sweep, clearing the flag. -/
def sweepReset {Q W : ℕ} (s : SchedState Q W) (w : Fin W) : SchedState Q W :=
  { s with phase := Function.update s.phase w (.steal 0 false) }

/-- End of a sweep that stole nothing: the outer loop of
`_do_work_stealing` exits and the worker thread returns (line 247). -/
def setDone {Q W : ℕ} (s : SchedState Q W) (w : Fin W) : SchedState Q W :=
  { s with phase := Function.update s.phase w .done }

/-- Interleaving semantics of one dispatch call: at each step the scheduler
runs one worker's next atomic action.  The sweep bound of the stealing loop
is `Q`, the value of `common.num_thread` (stored at line 134, i.e. the
compiled thread count). -/
inductive Step {Q W : ℕ} : SchedState Q W → SchedState Q W → Prop where
  | drain_claim (s : SchedState Q W) (w : Fin W) (hw : w.val < Q)
      (hph : s.phase w = .drain)
      (hlt : (s.queues ⟨w.val, hw⟩).next < (s.queues ⟨w.val, hw⟩).last) :
      Step s (drainClaim s w hw)
  | drain_break (s : SchedState Q W) (w : Fin W) (hw : w.val < Q)
      (hph : s.phase w = .drain)
      (hge : (s.queues ⟨w.val, hw⟩).last ≤ (s.queues ⟨w.val, hw⟩).next) :
      Step s (drainBreak s w hw)
  | steal_self (s : SchedState Q W) (w : Fin W) (p : Bool)
      (hph : s.phase w = .steal w.val p) (hi : w.val < Q) :
      Step s (stealAdvance s w w.val p)
  | steal_miss (s : SchedState Q W) (w : Fin W) (i : ℕ) (p : Bool)
      (hph : s.phase w = .steal i p) (hi : i < Q) (hne : i ≠ w.val)
      (hempty : (s.queues ⟨i, hi⟩).last ≤ (s.queues ⟨i, hi⟩).next) :
      Step s (stealAdvance s w i p)
  | steal_hit (s : SchedState Q W) (w : Fin W) (i : ℕ) (p : Bool)
      (hph : s.phase w = .steal i p) (hi : i < Q) (hne : i ≠ w.val)
      (hwork : (s.queues ⟨i, hi⟩).next < (s.queues ⟨i, hi⟩).last) :
      Step s (stealClaim s w ⟨i, hi⟩)
  | sweep_restart (s : SchedState Q W) (w : Fin W)
      (hph : s.phase w = .steal Q true) : Step s (sweepReset s w)
  | sweep_done (s : SchedState Q W) (w : Fin W)
      (hph : s.phase w = .steal Q false) : Step s (setDone s w)

/-- Initial state of one dispatch call in the regime `T ≤ N`, where the
fallback does not fire: the compiled thread count `T` equals the effective
one, all `T` workqueue slots are initialised by `_populate_workqueues`, and
the sweep bound `common.num_thread = T` is consistent.  All workers start
draining with empty claim multisets. -/
def cleanInit (N T : ℕ) : SchedState T T :=
  { queues := fun i => plannedQueue N (chunkSize N T) T i.val
    phase := fun _ => .drain
    claims := fun _ => 0 }

/-- States reachable during a dispatch of `N` items compiled for
`T = ThreadCount` threads in the no-fallback regime. -/
def Reachable (N T : ℕ) (s : SchedState T T) : Prop :=
  Relation.ReflTransGen Step (cleanInit N T) s

/-- Multiset of indices currently unclaimed inside a queue. -/
def qrange (q : WorkQueue) : Multiset ℕ :=
  (List.range' q.next (q.last - q.next) : List ℕ)

/-- A queue with no remaining work. -/
def QueueEmpty (q : WorkQueue) : Prop := q.last ≤ q.next

/-- All kernel invocations performed so far, over all workers. -/
def allClaims {Q W : ℕ} (s : SchedState Q W) : Multiset ℕ := ∑ w, s.claims w

/-- All indices still sitting in some queue slot. -/
def remaining {Q W : ℕ} (s : SchedState Q W) : Multiset ℕ :=
  ∑ j, qrange (s.queues j)

/-- Inductive invariant of a clean dispatch (`Q = W = T`, planned initial
queues).  `cover` is the heart: the claims and the queue contents together
always form exactly the multiset `{0, …, N-1}`, each index with
multiplicity one. -/
structure SchedInv (N : ℕ) {T : ℕ} (s : SchedState T T) : Prop where
  cover : allClaims s + remaining s = Multiset.range N
  last_le : ∀ j, (s.queues j).last ≤ N
  drain_le : ∀ w, s.phase w = .drain →
    (s.queues w).next ≤ (s.queues w).last
  post_drain : ∀ w, s.phase w ≠ .drain → QueueEmpty (s.queues w)
  overshoot : ∀ j, (s.queues j).next ≤ (s.queues j).last + 1
  sweep_inv : ∀ w i, s.phase w = .steal i false →
    ∀ j : Fin T, j.val < i → j.val ≠ w.val → QueueEmpty (s.queues j)
  done_inv : ∀ w, s.phase w = .done → ∀ j, QueueEmpty (s.queues j)

/-- The only worker of a one-worker dispatch. -/
def w1 : Fin 1 := ⟨0, Nat.one_pos⟩

/-- State of the dispatch `N = 1, T = 1` after the single drain claim. -/
def overshoot1 : SchedState 1 1 := drainClaim (cleanInit 1 1) w1 Nat.one_pos

/-- State of the dispatch `N = 1, T = 1` after the breaking drain
iteration: the own queue now reads `next = 2, last = 1`. -/
def overshootState : SchedState 1 1 := drainBreak overshoot1 w1 Nat.one_pos

/-- Dispatch of `N = 1` items compiled for `ThreadCount = 2` threads: the
fallback (lines 145-148) sets `num_thread := 1`, so `_populate_workqueues`
initialises slot 0 only (with `plannedQueue 1 1 1 0 = ⟨0, 1, 0⟩`) and one
worker is spawned — but `common.num_thread`, stored at line 134 *before*
the reduction, still reads 2, so the worker's stealing sweep also visits
slot 1, whose `WorkQueue` is uninitialised stack memory.  `⟨5, 7, 0⟩` is
one possible residue of that slot. -/
def buggyInit : SchedState 2 1 :=
  { queues := fun j => if j.val = 0 then ⟨0, 1, 0⟩ else ⟨5, 7, 0⟩
    phase := fun _ => .drain
    claims := fun _ => 0 }

/-- Trace of the `N = 1, ThreadCount = 2` fallback dispatch: drain claims
index 0. -/
def bs1 : SchedState 2 1 := drainClaim buggyInit w1 (by decide)

/-- The drain loop breaks; worker 0 starts stealing. -/
def bs2 : SchedState 2 1 := drainBreak bs1 w1 (by decide)

/-- Sweep slot 0 is the worker itself: skipped. -/
def bs3 : SchedState 2 1 := stealAdvance bs2 w1 0 false

/-- Sweep slot 1 is the uninitialised queue `⟨5, 7, 0⟩`: the worker
"steals" the garbage index 6 and invokes the kernel on it. -/
def bs4 : SchedState 2 1 := stealClaim bs3 w1 ⟨1, by decide⟩

/-- The sweep made progress, so a new sweep starts. -/
def bs5 : SchedState 2 1 := sweepReset bs4 w1

/-- Slot 0 skipped again. -/
def bs6 : SchedState 2 1 := stealAdvance bs5 w1 0 false

/-- The garbage queue still reads `next = 5 < last = 6`: index 5 is stolen
and the kernel invoked on it. -/
def bs7 : SchedState 2 1 := stealClaim bs6 w1 ⟨1, by decide⟩

/-- Another sweep starts. -/
def bs8 : SchedState 2 1 := sweepReset bs7 w1

/-- Slot 0 skipped. -/
def bs9 : SchedState 2 1 := stealAdvance bs8 w1 0 false

/-- The garbage queue is now empty (`5 ≤ 5`): no steal. -/
def bs10 : SchedState 2 1 := stealAdvance bs9 w1 1 false

/-- The sweep made no progress: the worker finishes. -/
def buggyFinal : SchedState 2 1 := setDone bs10 w1

/-- Two-worker demonstration state for the stealing protocol: worker 0 has
drained its own queue and its sweep is about to examine slot 1, which still
holds the range `[0, 2)` owned by worker 1 (still draining). -/
def stealDemo : SchedState 2 2 :=
  { queues := fun j => if j.val = 0 then ⟨3, 3, 0⟩ else ⟨0, 2, 0⟩
    phase := fun v => if v.val = 0 then .steal 1 false else .drain
    claims := fun _ => 0 }

/-! Theorems. -/

/-- Accumulating a mapped element per iteration is the same as appending the
mapped list: shape of the `indata` loop of `_do_work`. -/
lemma foldl_append_eq_map {α β : Type} (f : α → β) (l : List α) :
    ∀ acc : List β, l.foldl (fun a k => a ++ [f k]) acc = acc ++ l.map f := by
  induction l with
  | nil => intro acc; simp
  | cons x xs ih => intro acc; simp [ih]

/-- C9: for every global index, the kernel invoker loads each input argument
`k` from `base[k] + i * stride[k]`, invokes the kernel on the loaded values
in argument order, and stores the result at `output_base + i * output_stride`
where the output pointer and stride are the entries immediately after the
inputs; stride values (zero, negative or irregular included) are used
unmodified, with no validation hypothesis anywhere. -/
theorem kernel_invoker_addressing {V : Type} (load : ℤ → V) (func : List V → V)
    (args steps : ℕ → ℤ) (nargs item : ℕ) :
    do_work load func args steps nargs item
      = do_work_spec load func args steps nargs item := by
  unfold do_work do_work_spec
  rw [foldl_append_eq_map (fun k => load (get_offset (args k) (steps k) item))
    (List.range nargs) []]
  simp [get_offset]

/-- C8: Unlock performs a compare-and-exchange from locked (1) to unlocked
(0); when the observed prior state is locked it stores 0 and returns, and for
every other observed prior state the generated code aborts (`unreachable()`),
never continuing silently. -/
theorem unlock_protocol (s : ℕ) :
    (s = 1 → unlock s = some 0) ∧ (s ≠ 1 → unlock s = none) := by
  constructor
  · rintro rfl; rfl
  · intro h; simp [unlock, atomic_cmpxchg, h]

/-- Witness for C8: release of a properly locked word succeeds, release of an
unlocked word aborts. -/
theorem unlock_protocol_witness : unlock 1 = some 0 ∧ unlock 0 = none :=
  ⟨(unlock_protocol 1).1 rfl, (unlock_protocol 0).2 (by decide)⟩

/-- C10: in all four code paths touching a queue (drain iteration, drain
exit, successful steal, empty-peer check) the kernel invocation and the
completed-counter increment happen with no lock held, and every event
performed while the queue lock is held (other than the release itself) is a
read or write of the queue fields `next` and `last`. -/
theorem no_kernel_invocation_under_lock :
    ∀ tr ∈ [drainIterEvents, drainExitEvents, stealHitEvents, stealMissEvents],
      ∀ k : Fin tr.length,
        ((tr.get k = Ev.invokeKernel ∨ tr.get k = Ev.incCompleted) →
          heldBefore tr k.val = 0) ∧
        (heldBefore tr k.val = 1 → tr.get k ≠ Ev.lockRel →
          isQueueFieldOp (tr.get k) = true) := by decide

/-- Witness for C10: the kernel invocation of a claiming drain iteration
(position 5 of its trace) runs with zero locks held. -/
theorem no_kernel_invocation_under_lock_witness :
    heldBefore drainIterEvents 5 = 0 :=
  (no_kernel_invocation_under_lock drainIterEvents (by decide)
    ⟨5, by decide⟩).1 (Or.inl rfl)

/-- C2: the end-of-run check of `ParallelUFunc.body` sums `completed` over
all `ThreadCount` compiled context slots (line 163) even though
`_populate_context` initialised only the first `num_thread` of them, so in
the fallback case the sum reads uninitialised memory.  Failing input:
compiled `ThreadCount = 2`, dispatch of `N = 1` (effective worker count 1);
the single worker completes exactly the one index, yet with residue 7 in the
uninitialised slot the check totals 8 ≠ 1 and the generated code aborts via
`unreachable()` although every index was processed exactly once. -/
theorem race_check_uninitialized_context_bug :
    effThreads 1 2 = 1 ∧
    (∑ t ∈ Finset.range (effThreads 1 2), (fun _ : ℕ => 1) t) = 1 ∧
    debugCheckTotal 2 (effThreads 1 2) (fun _ => 1) (fun _ => 7) = 8 ∧
    ¬ debugCheckPasses 2 (effThreads 1 2) 1 (fun _ => 1) (fun _ => 7) := by
  refine ⟨by decide, by decide, by decide, ?_⟩
  unfold debugCheckPasses
  decide

/-- C4: with `N = 0` (compiled `ThreadCount = 4` here) the chunk fallback
fires and sets the effective worker count to 0 and zero threads are spawned,
but `_populate_workqueues` still executes its forced last-queue assignment
at index `num_thread - 1 = -1` — an out-of-bounds write of a queue field
(modelled by `none`) — and the end-of-run check then sums the `ThreadCount`
uninitialised completed counters, aborting whenever their residues are
nonzero (residue 3 shown), so the call does not simply return. -/
theorem n_zero_oob_write_bug :
    (0 : ℕ) / 4 = 0 ∧ chunkSize 0 4 = 1 ∧ effThreads 0 4 = 0 ∧
    populate_workqueues 0 (chunkSize 0 4) (effThreads 0 4) = none ∧
    spawnedThreads (effThreads 0 4) = [] ∧
    ¬ debugCheckPasses 4 (effThreads 0 4) 0 (fun _ => 0) (fun _ => 3) := by
  refine ⟨rfl, rfl, rfl, rfl, rfl, ?_⟩
  unfold debugCheckPasses
  decide

/-- Concatenating the `m` equal chunks of size `c` yields the initial
segment `[0, m*c)`. -/
lemma middle_ranges_sum (c m : ℕ) :
    (∑ i ∈ Finset.range m, ((List.range' (i * c) c : List ℕ) : Multiset ℕ))
      = ((List.range' 0 (m * c) : List ℕ) : Multiset ℕ) := by
  induction m with
  | zero => simp
  | succ m ih =>
      rw [Finset.sum_range_succ, ih, Multiset.coe_add]
      congr 1
      have h := List.range'_append_1 0 (m * c) c
      rw [Nat.zero_add] at h
      rw [h]
      congr 1
      ring

/-- The planned queues of a dispatch with `m + 1` workers cover `[0, N)`
exactly once, the last queue absorbing the division remainder. -/
lemma planned_partition (N c m : ℕ) (h : m * c ≤ N) :
    (∑ i ∈ Finset.range (m + 1), qrange (plannedQueue N c (m + 1) i))
      = Multiset.range N := by
  rw [Finset.sum_range_succ]
  have hmid : ∀ i ∈ Finset.range m,
      qrange (plannedQueue N c (m + 1) i)
        = ((List.range' (i * c) c : List ℕ) : Multiset ℕ) := by
    intro i hi
    rw [Finset.mem_range] at hi
    have hne : i ≠ m + 1 - 1 := by omega
    simp only [plannedQueue, if_neg hne, qrange]
    have hc2 : (i + 1) * c - i * c = c := by
      have h2 : (i + 1) * c = i * c + c := by ring
      omega
    rw [hc2]
  rw [Finset.sum_congr rfl hmid, middle_ranges_sum]
  have hlast : qrange (plannedQueue N c (m + 1) m)
      = ((List.range' (m * c) (N - m * c) : List ℕ) : Multiset ℕ) := by
    have hm : m = m + 1 - 1 := by omega
    simp only [plannedQueue, if_pos hm, qrange]
  rw [hlast, Multiset.coe_add]
  have happ := List.range'_append_1 0 (m * c) (N - m * c)
  rw [Nat.zero_add] at happ
  rw [happ]
  have hN : N - m * c + m * c = N := by omega
  rw [hN, ← List.range_eq_range']
  exact Multiset.coe_range N

/-- C5: for `N ≥ T ≥ 1` (so the effective worker count is the requested `T`
and the chunk is `N / T`), slot `i` receives the range
`[i*chunk, (i+1)*chunk)` and the last slot's `last` is forced to exactly
`N`, absorbing the whole division remainder; the resulting ranges cover
`[0, N)` with every index exactly once. -/
theorem chunk_partition (N T : ℕ) (h1 : 1 ≤ T) (hTN : T ≤ N) :
    chunkSize N T = N / T ∧ effThreads N T = T ∧
    populate_workqueues N (N / T) T
      = some ((List.range T).map (plannedQueue N (N / T) T)) ∧
    (∀ i, i + 1 < T →
      plannedQueue N (N / T) T i = ⟨i * (N / T), (i + 1) * (N / T), 0⟩) ∧
    plannedQueue N (N / T) T (T - 1) = ⟨(T - 1) * (N / T), N, 0⟩ ∧
    (T - 1) * (N / T) ≤ N ∧
    (∑ i ∈ Finset.range T, qrange (plannedQueue N (N / T) T i))
      = Multiset.range N := by
  have hpos : 0 < N / T := (Nat.one_le_div_iff (by omega)).mpr hTN
  have hbound : (T - 1) * (N / T) ≤ N := by
    calc (T - 1) * (N / T) ≤ T * (N / T) := Nat.mul_le_mul_right _ (by omega)
    _ = N / T * T := Nat.mul_comm _ _
    _ ≤ N := Nat.div_mul_le_self N T
  refine ⟨?_, ?_, ?_, ?_, ?_, hbound, ?_⟩
  · unfold chunkSize; rw [if_neg (by omega)]
  · unfold effThreads; rw [if_neg (by omega)]
  · unfold populate_workqueues; rw [if_neg (by omega)]
  · intro i hi; unfold plannedQueue; rw [if_neg (by omega)]
  · unfold plannedQueue; rw [if_pos rfl]
  · obtain ⟨m, rfl⟩ : ∃ m, T = m + 1 := ⟨T - 1, by omega⟩
    refine planned_partition N (N / (m + 1)) m ?_
    calc m * (N / (m + 1)) ≤ (m + 1) * (N / (m + 1)) :=
          Nat.mul_le_mul_right _ (by omega)
    _ = N / (m + 1) * (m + 1) := Nat.mul_comm _ _
    _ ≤ N := Nat.div_mul_le_self N (m + 1)

/-- Witness for C5 at the specified instance `N = 10, T = 3`: ranges
`[0,3), [3,6), [6,10)` with the last queue absorbing the remainder 1, and
the three ranges partition `[0, 10)`. -/
theorem chunk_partition_witness :
    populate_workqueues 10 (10 / 3) 3
      = some ((List.range 3).map (plannedQueue 10 (10 / 3) 3)) ∧
    (List.range 3).map (plannedQueue 10 (10 / 3) 3)
      = [⟨0, 3, 0⟩, ⟨3, 6, 0⟩, ⟨6, 10, 0⟩] ∧
    (∑ i ∈ Finset.range 3, qrange (plannedQueue 10 (10 / 3) 3 i))
      = Multiset.range 10 := by
  have h := chunk_partition 10 3 (by decide) (by decide)
  exact ⟨h.2.2.1, by decide, h.2.2.2.2.2.2⟩

/-- C6: when `1 ≤ N < T` the integer division gives chunk 0, the fallback
sets the chunk to 1 and the effective worker count to `N`; the `N` queues
are the one-element ranges `[i, i+1)`, exactly `N` worker threads are
created by the launch loop, and no thread with id `≥ N` is ever spawned. -/
theorem undersubscription_fallback (N T : ℕ) (h1 : 1 ≤ N) (h2 : N < T) :
    N / T = 0 ∧ chunkSize N T = 1 ∧ effThreads N T = N ∧
    populate_workqueues N (chunkSize N T) (effThreads N T)
      = some ((List.range N).map (fun i => ⟨i, i + 1, 0⟩)) ∧
    spawnedThreads (effThreads N T) = List.range N ∧
    (spawnedThreads (effThreads N T)).length = N ∧
    (∀ t, t ∈ spawnedThreads (effThreads N T) ↔ t < N) := by
  have hdiv : N / T = 0 := Nat.div_eq_of_lt h2
  have hc : chunkSize N T = 1 := by simp [chunkSize, hdiv]
  have he : effThreads N T = N := by simp [effThreads, hdiv]
  refine ⟨hdiv, hc, he, ?_, ?_, ?_, ?_⟩
  · rw [hc, he]
    unfold populate_workqueues
    rw [if_neg (by omega)]
    congr 1
    apply List.map_congr_left
    intro i hi
    rw [List.mem_range] at hi
    unfold plannedQueue
    by_cases hiN : i = N - 1
    · rw [if_pos hiN, Nat.mul_one]
      have hN : N = i + 1 := by omega
      rw [hN]
    · rw [if_neg hiN, Nat.mul_one, Nat.mul_one]
  · rw [he]; rfl
  · rw [he]; simp [spawnedThreads]
  · intro t; rw [he]; simp [spawnedThreads]

/-- Witness for C6 at the specified instance `N = 2, T = 4`: two one-element
queues `[0,1)` and `[1,2)`, and only workers 0 and 1 spawned. -/
theorem undersubscription_fallback_witness :
    populate_workqueues 2 (chunkSize 2 4) (effThreads 2 4)
      = some [⟨0, 1, 0⟩, ⟨1, 2, 0⟩] ∧
    spawnedThreads (effThreads 2 4) = [0, 1] := by
  have h := undersubscription_fallback 2 4 (by decide) (by decide)
  refine ⟨?_, ?_⟩
  · rw [h.2.2.2.1]; decide
  · rw [h.2.2.2.2.1]; decide

/-- Counterexample to C3 as stated: in the dispatch `N = 1, T = 1` (no
fallback), after the worker drains its one item and executes the breaking
drain iteration — which still increments `next` — its queue reads
`next = 2, last = 1`, violating `next ≤ last`. -/
theorem drain_overshoot_counterexample :
    Relation.ReflTransGen Step (cleanInit 1 1) overshootState ∧
    (overshootState.queues w1).last < (overshootState.queues w1).next := by
  constructor
  · have h1 : Step (cleanInit 1 1) overshoot1 :=
      Step.drain_claim (cleanInit 1 1) w1 Nat.one_pos rfl (by decide)
    have h2 : Step overshoot1 overshootState :=
      Step.drain_break overshoot1 w1 Nat.one_pos rfl (by decide)
    exact Relation.ReflTransGen.head h1
      (Relation.ReflTransGen.head h2 Relation.ReflTransGen.refl)
  · decide

/-- Queue array lookup after a drain update. -/
lemma drainClaim_queues {Q W : ℕ} (s : SchedState Q W) (w : Fin W)
    (hw : w.val < Q) (k : Fin Q) :
    (drainClaim s w hw).queues k
      = if k = ⟨w.val, hw⟩
        then { s.queues ⟨w.val, hw⟩ with
                next := (s.queues ⟨w.val, hw⟩).next + 1 }
        else s.queues k := Function.update_apply _ _ _ _

/-- Claims lookup after a drain claim. -/
lemma drainClaim_claims {Q W : ℕ} (s : SchedState Q W) (w : Fin W)
    (hw : w.val < Q) (v : Fin W) :
    (drainClaim s w hw).claims v
      = if v = w then s.claims w + {(s.queues ⟨w.val, hw⟩).next}
        else s.claims v := Function.update_apply _ _ _ _

/-- Queue array lookup after the breaking drain iteration. -/
lemma drainBreak_queues {Q W : ℕ} (s : SchedState Q W) (w : Fin W)
    (hw : w.val < Q) (k : Fin Q) :
    (drainBreak s w hw).queues k
      = if k = ⟨w.val, hw⟩
        then { s.queues ⟨w.val, hw⟩ with
                next := (s.queues ⟨w.val, hw⟩).next + 1 }
        else s.queues k := Function.update_apply _ _ _ _

/-- Phase lookup after the breaking drain iteration. -/
lemma drainBreak_phase {Q W : ℕ} (s : SchedState Q W) (w : Fin W)
    (hw : w.val < Q) (v : Fin W) :
    (drainBreak s w hw).phase v
      = if v = w then Phase.steal 0 false else s.phase v :=
  Function.update_apply _ _ _ _

/-- Phase lookup after a sweep advance. -/
lemma stealAdvance_phase {Q W : ℕ} (s : SchedState Q W) (w : Fin W)
    (i : ℕ) (p : Bool) (v : Fin W) :
    (stealAdvance s w i p).phase v
      = if v = w then Phase.steal (i + 1) p else s.phase v :=
  Function.update_apply _ _ _ _

/-- Queue array lookup after a successful steal. -/
lemma stealClaim_queues {Q W : ℕ} (s : SchedState Q W) (w : Fin W)
    (j : Fin Q) (k : Fin Q) :
    (stealClaim s w j).queues k
      = if k = j
        then { s.queues j with last := (s.queues j).last - 1 }
        else s.queues k := Function.update_apply _ _ _ _

/-- Phase lookup after a successful steal. -/
lemma stealClaim_phase {Q W : ℕ} (s : SchedState Q W) (w : Fin W)
    (j : Fin Q) (v : Fin W) :
    (stealClaim s w j).phase v
      = if v = w then Phase.steal (j.val + 1) true else s.phase v :=
  Function.update_apply _ _ _ _

/-- Claims lookup after a successful steal. -/
lemma stealClaim_claims {Q W : ℕ} (s : SchedState Q W) (w : Fin W)
    (j : Fin Q) (v : Fin W) :
    (stealClaim s w j).claims v
      = if v = w then s.claims w + {(s.queues j).last - 1}
        else s.claims v := Function.update_apply _ _ _ _

/-- Phase lookup after a sweep restart. -/
lemma sweepReset_phase {Q W : ℕ} (s : SchedState Q W) (w : Fin W) (v : Fin W) :
    (sweepReset s w).phase v
      = if v = w then Phase.steal 0 false else s.phase v :=
  Function.update_apply _ _ _ _

/-- Phase lookup after a worker finishes. -/
lemma setDone_phase {Q W : ℕ} (s : SchedState Q W) (w : Fin W) (v : Fin W) :
    (setDone s w).phase v = if v = w then Phase.done else s.phase v :=
  Function.update_apply _ _ _ _

/-- Monotonicity of `Step` on every queue: `next` never decreases and
`last` never increases. -/
lemma step_mono {Q W : ℕ} {s t : SchedState Q W} (h : Step s t) (j : Fin Q) :
    (s.queues j).next ≤ (t.queues j).next ∧
    (t.queues j).last ≤ (s.queues j).last := by
  cases h with
  | drain_claim w hw hph hlt =>
      rw [drainClaim_queues]
      by_cases hj : j = ⟨w.val, hw⟩
      · subst hj; rw [if_pos rfl]; exact ⟨Nat.le_succ _, le_refl _⟩
      · rw [if_neg hj]; exact ⟨le_refl _, le_refl _⟩
  | drain_break w hw hph hge =>
      rw [drainBreak_queues]
      by_cases hj : j = ⟨w.val, hw⟩
      · subst hj; rw [if_pos rfl]; exact ⟨Nat.le_succ _, le_refl _⟩
      · rw [if_neg hj]; exact ⟨le_refl _, le_refl _⟩
  | steal_self w p hph hi => exact ⟨le_refl _, le_refl _⟩
  | steal_miss w i p hph hi hne hempty => exact ⟨le_refl _, le_refl _⟩
  | steal_hit w i p hph hi hne hwork =>
      rw [stealClaim_queues]
      by_cases hj : j = ⟨i, hi⟩
      · subst hj; rw [if_pos rfl]; exact ⟨le_refl _, Nat.sub_le _ _⟩
      · rw [if_neg hj]; exact ⟨le_refl _, le_refl _⟩
  | sweep_restart w hph => exact ⟨le_refl _, le_refl _⟩
  | sweep_done w hph => exact ⟨le_refl _, le_refl _⟩

/-- Empty queues stay empty along the shrinking order of `step_mono`. -/
lemma queueEmpty_mono {q q' : WorkQueue} (hn : q.next ≤ q'.next)
    (hl : q'.last ≤ q.last) (h : QueueEmpty q) : QueueEmpty q' := by
  unfold QueueEmpty at *; omega

/-- An empty queue contributes nothing. -/
lemma qrange_zero (q : WorkQueue) (h : q.last ≤ q.next) : qrange q = 0 := by
  unfold qrange
  rw [Nat.sub_eq_zero_of_le h]
  rfl

/-- A non-empty queue splits off its head `next`. -/
lemma qrange_head (q : WorkQueue) (h : q.next < q.last) :
    qrange q = {q.next} + qrange ⟨q.next + 1, q.last, q.lock⟩ := by
  simp only [qrange]
  have h1 : q.last - q.next = (q.last - (q.next + 1)) + 1 := by omega
  rw [h1, List.range'_succ, Multiset.singleton_add, Multiset.cons_coe]

/-- A non-empty queue splits off its tail `last - 1`. -/
lemma qrange_tail (q : WorkQueue) (h : q.next < q.last) :
    qrange q = {q.last - 1} + qrange ⟨q.next, q.last - 1, q.lock⟩ := by
  simp only [qrange]
  have h1 : q.last - q.next = ((q.last - 1) - q.next) + 1 := by omega
  rw [h1, List.range'_1_concat]
  have h2 : q.next + ((q.last - 1) - q.next) = q.last - 1 := by omega
  rw [h2, ← Multiset.coe_add, Multiset.coe_singleton, add_comm]

/-- Membership in a queue range. -/
lemma mem_qrange {q : WorkQueue} {x : ℕ} :
    x ∈ qrange q ↔ q.next ≤ x ∧ x < q.last := by
  simp only [qrange, Multiset.mem_coe, List.mem_range']
  constructor
  · rintro ⟨i, hi, rfl⟩; omega
  · intro h; exact ⟨x - q.next, by omega, by omega⟩

/-- Updating one summand of a finite sum. -/
lemma sum_update_add {n : ℕ} {M : Type} [AddCommMonoid M] (f : Fin n → M)
    (j : Fin n) (x : M) :
    (∑ i, Function.update f j x i) + f j = (∑ i, f i) + x := by
  rw [Finset.sum_update_of_mem (Finset.mem_univ j)]
  rw [Finset.sum_eq_sum_diff_singleton_add (Finset.mem_univ j) f]
  abel

/-- Adding one element to one worker's claim multiset adds it to the sum. -/
lemma sum_update_claims {n : ℕ} (f : Fin n → Multiset ℕ) (j : Fin n) (a : ℕ) :
    (∑ i, Function.update f j (f j + {a}) i) = (∑ i, f i) + {a} := by
  have h2 : (∑ i, Function.update f j (f j + {a}) i) + f j
      = ((∑ i, f i) + {a}) + f j := by
    rw [sum_update_add f j (f j + {a})]; abel
  exact add_right_cancel h2

/-- Updating one queue changes the total unclaimed multiset accordingly. -/
lemma sum_qrange_update {Q : ℕ} (f : Fin Q → WorkQueue) (j : Fin Q)
    (q' : WorkQueue) :
    (∑ i, qrange (Function.update f j q' i)) + qrange (f j)
      = (∑ i, qrange (f i)) + qrange q' := by
  have e : (fun i => qrange (Function.update f j q' i))
      = Function.update (fun i => qrange (f i)) j (qrange q') := by
    funext i
    by_cases h : i = j
    · subst h; simp
    · simp [Function.update_noteq h]
  calc (∑ i, qrange (Function.update f j q' i)) + qrange (f j)
      = (∑ i, Function.update (fun i => qrange (f i)) j (qrange q') i)
          + qrange (f j) := by rw [e]
  _ = (∑ i, qrange (f i)) + qrange q' :=
        sum_update_add (fun i => qrange (f i)) j (qrange q')

/-- Claiming item `a` out of queue `j` preserves the covering equation. -/
lemma cover_claim_update {T N : ℕ} (s : SchedState T T) (w : Fin T)
    (j : Fin T) (q' : WorkQueue) (a : ℕ)
    (hcov : allClaims s + remaining s = Multiset.range N)
    (hq : qrange (s.queues j) = {a} + qrange q') :
    (∑ i, Function.update s.claims w (s.claims w + {a}) i)
      + (∑ i, qrange (Function.update s.queues j q' i)) = Multiset.range N := by
  have h1 := sum_qrange_update s.queues j q'
  rw [hq] at h1
  have h2 : ((∑ i, qrange (Function.update s.queues j q' i)) + {a}) + qrange q'
      = (∑ i, qrange (s.queues i)) + qrange q' := by
    rw [add_assoc]; exact h1
  have h3 := add_right_cancel h2
  rw [sum_update_claims]
  calc ((∑ i, s.claims i) + {a})
        + (∑ i, qrange (Function.update s.queues j q' i))
      = (∑ i, s.claims i)
          + ((∑ i, qrange (Function.update s.queues j q' i)) + {a}) := by abel
  _ = (∑ i, s.claims i) + (∑ i, qrange (s.queues i)) := by rw [h3]
  _ = Multiset.range N := hcov

/-- Replacing queue `j` by one with the same contents preserves the
covering equation. -/
lemma cover_keep_update {T N : ℕ} (s : SchedState T T) (j : Fin T)
    (q' : WorkQueue)
    (hcov : allClaims s + remaining s = Multiset.range N)
    (hq : qrange q' = qrange (s.queues j)) :
    allClaims s + (∑ i, qrange (Function.update s.queues j q' i))
      = Multiset.range N := by
  have h1 := sum_qrange_update s.queues j q'
  rw [hq] at h1
  have h2 := add_right_cancel h1
  rw [h2]
  exact hcov

/-- Every scheduler step preserves the invariant. -/
lemma schedInv_step {N T : ℕ} {s t : SchedState T T}
    (hs : SchedInv N s) (hst : Step s t) : SchedInv N t := by
  cases hst with
  | drain_claim w hw hph hlt =>
      refine ⟨?_, ?_, ?_, ?_, ?_, ?_, ?_⟩
      · exact cover_claim_update s w ⟨w.val, hw⟩ _ _ hs.cover
          (qrange_head _ hlt)
      · intro j
        rw [drainClaim_queues]
        by_cases hj : j = ⟨w.val, hw⟩
        · rw [if_pos hj]; exact hs.last_le ⟨w.val, hw⟩
        · rw [if_neg hj]; exact hs.last_le j
      · intro v hv
        rw [drainClaim_queues]
        by_cases hvw : v = ⟨w.val, hw⟩
        · rw [if_pos hvw]
          show (s.queues ⟨w.val, hw⟩).next + 1 ≤ (s.queues ⟨w.val, hw⟩).last
          omega
        · rw [if_neg hvw]
          exact hs.drain_le v hv
      · intro v hv
        rw [drainClaim_queues]
        by_cases hvw : v = ⟨w.val, hw⟩
        · subst hvw
          exact absurd hph hv
        · rw [if_neg hvw]
          exact hs.post_drain v hv
      · intro j
        rw [drainClaim_queues]
        by_cases hj : j = ⟨w.val, hw⟩
        · rw [if_pos hj]
          show (s.queues ⟨w.val, hw⟩).next + 1 ≤ (s.queues ⟨w.val, hw⟩).last + 1
          omega
        · rw [if_neg hj]; exact hs.overshoot j
      · intro v iv hv j hji hjv
        rw [drainClaim_queues]
        by_cases hj : j = ⟨w.val, hw⟩
        · exfalso
          have hemp := hs.sweep_inv v iv hv j hji hjv
          rw [hj] at hemp
          unfold QueueEmpty at hemp
          omega
        · rw [if_neg hj]
          exact hs.sweep_inv v iv hv j hji hjv
      · intro v hv j
        exfalso
        have hemp := hs.done_inv v hv ⟨w.val, hw⟩
        unfold QueueEmpty at hemp
        omega
  | drain_break w hw hph hge =>
      refine ⟨?_, ?_, ?_, ?_, ?_, ?_, ?_⟩
      · refine cover_keep_update s ⟨w.val, hw⟩ _ hs.cover ?_
        have h1 : qrange { s.queues ⟨w.val, hw⟩ with
            next := (s.queues ⟨w.val, hw⟩).next + 1 } = 0 :=
          qrange_zero _ (by
            show (s.queues ⟨w.val, hw⟩).last ≤ (s.queues ⟨w.val, hw⟩).next + 1
            omega)
        have h2 : qrange (s.queues ⟨w.val, hw⟩) = 0 := qrange_zero _ hge
        rw [h1, h2]
      · intro j
        rw [drainBreak_queues]
        by_cases hj : j = ⟨w.val, hw⟩
        · rw [if_pos hj]; exact hs.last_le ⟨w.val, hw⟩
        · rw [if_neg hj]; exact hs.last_le j
      · intro v hv
        rw [drainBreak_phase] at hv
        by_cases hvw : v = w
        · rw [if_pos hvw] at hv; exact Phase.noConfusion hv
        · rw [if_neg hvw] at hv
          rw [drainBreak_queues]
          by_cases hj : v = ⟨w.val, hw⟩
          · exact absurd hj hvw
          · rw [if_neg hj]
            exact hs.drain_le v hv
      · intro v hv
        rw [drainBreak_queues]
        by_cases hj : v = ⟨w.val, hw⟩
        · rw [if_pos hj]
          show (s.queues ⟨w.val, hw⟩).last ≤ (s.queues ⟨w.val, hw⟩).next + 1
          omega
        · rw [if_neg hj]
          refine hs.post_drain v ?_
          intro hc
          apply hv
          rw [drainBreak_phase, if_neg hj]
          exact hc
      · intro j
        rw [drainBreak_queues]
        by_cases hj : j = ⟨w.val, hw⟩
        · rw [if_pos hj]
          have hd : (s.queues ⟨w.val, hw⟩).next ≤ (s.queues ⟨w.val, hw⟩).last :=
            hs.drain_le w hph
          show (s.queues ⟨w.val, hw⟩).next + 1 ≤ (s.queues ⟨w.val, hw⟩).last + 1
          omega
        · rw [if_neg hj]; exact hs.overshoot j
      · intro v iv hv j hji hjv
        rw [drainBreak_phase] at hv
        by_cases hvw : v = w
        · rw [if_pos hvw] at hv
          injection hv with hiv hp
          exact absurd hji (by omega)
        · rw [if_neg hvw] at hv
          rw [drainBreak_queues]
          by_cases hj : j = ⟨w.val, hw⟩
          · rw [if_pos hj]
            have hemp := hs.sweep_inv v iv hv j hji hjv
            rw [hj] at hemp
            unfold QueueEmpty at hemp
            show (s.queues ⟨w.val, hw⟩).last ≤ (s.queues ⟨w.val, hw⟩).next + 1
            omega
          · rw [if_neg hj]
            exact hs.sweep_inv v iv hv j hji hjv
      · intro v hv j
        rw [drainBreak_phase] at hv
        by_cases hvw : v = w
        · rw [if_pos hvw] at hv; exact Phase.noConfusion hv
        · rw [if_neg hvw] at hv
          have hemp := hs.done_inv v hv j
          rw [drainBreak_queues]
          by_cases hj : j = ⟨w.val, hw⟩
          · rw [if_pos hj]
            rw [hj] at hemp
            unfold QueueEmpty at hemp
            show (s.queues ⟨w.val, hw⟩).last ≤ (s.queues ⟨w.val, hw⟩).next + 1
            omega
          · rw [if_neg hj]; exact hemp
  | steal_self w p hph hi =>
      refine ⟨hs.cover, hs.last_le, ?_, ?_, hs.overshoot, ?_, ?_⟩
      · intro v hv
        rw [stealAdvance_phase] at hv
        by_cases hvw : v = w
        · rw [if_pos hvw] at hv; exact Phase.noConfusion hv
        · rw [if_neg hvw] at hv; exact hs.drain_le v hv
      · intro v hv
        by_cases hvw : v = w
        · subst hvw
          refine hs.post_drain v ?_
          rw [hph]
          exact fun hc => Phase.noConfusion hc
        · refine hs.post_drain v ?_
          intro hc
          apply hv
          rw [stealAdvance_phase, if_neg hvw]
          exact hc
      · intro v iv hv j hji hjv
        by_cases hvw : v = w
        · subst hvw
          rw [stealAdvance_phase, if_pos rfl] at hv
          injection hv with hiv hp
          subst hp
          exact hs.sweep_inv v v.val hph j (by omega) hjv
        · rw [stealAdvance_phase, if_neg hvw] at hv
          exact hs.sweep_inv v iv hv j hji hjv
      · intro v hv j
        rw [stealAdvance_phase] at hv
        by_cases hvw : v = w
        · rw [if_pos hvw] at hv; exact Phase.noConfusion hv
        · rw [if_neg hvw] at hv; exact hs.done_inv v hv j
  | steal_miss w i p hph hi hne hempty =>
      refine ⟨hs.cover, hs.last_le, ?_, ?_, hs.overshoot, ?_, ?_⟩
      · intro v hv
        rw [stealAdvance_phase] at hv
        by_cases hvw : v = w
        · rw [if_pos hvw] at hv; exact Phase.noConfusion hv
        · rw [if_neg hvw] at hv; exact hs.drain_le v hv
      · intro v hv
        by_cases hvw : v = w
        · subst hvw
          refine hs.post_drain v ?_
          rw [hph]
          exact fun hc => Phase.noConfusion hc
        · refine hs.post_drain v ?_
          intro hc
          apply hv
          rw [stealAdvance_phase, if_neg hvw]
          exact hc
      · intro v iv hv j hji hjv
        by_cases hvw : v = w
        · subst hvw
          rw [stealAdvance_phase, if_pos rfl] at hv
          injection hv with hiv hp
          subst hp
          by_cases hjival : j.val < i
          · exact hs.sweep_inv v i hph j hjival hjv
          · have hji2 : j.val = i := by omega
            have hjeq : j = ⟨i, hi⟩ := Fin.ext hji2
            rw [hjeq]
            exact hempty
        · rw [stealAdvance_phase, if_neg hvw] at hv
          exact hs.sweep_inv v iv hv j hji hjv
      · intro v hv j
        rw [stealAdvance_phase] at hv
        by_cases hvw : v = w
        · rw [if_pos hvw] at hv; exact Phase.noConfusion hv
        · rw [if_neg hvw] at hv; exact hs.done_inv v hv j
  | steal_hit w i p hph hi hne hwork =>
      have hwne : (⟨i, hi⟩ : Fin T) ≠ w := fun hc => hne (congrArg Fin.val hc)
      refine ⟨?_, ?_, ?_, ?_, ?_, ?_, ?_⟩
      · exact cover_claim_update s w ⟨i, hi⟩ _ _ hs.cover
          (qrange_tail _ hwork)
      · intro j
        rw [stealClaim_queues]
        by_cases hj : j = ⟨i, hi⟩
        · rw [if_pos hj]
          have := hs.last_le ⟨i, hi⟩
          show (s.queues ⟨i, hi⟩).last - 1 ≤ N
          omega
        · rw [if_neg hj]; exact hs.last_le j
      · intro v hv
        rw [stealClaim_phase] at hv
        by_cases hvw : v = w
        · rw [if_pos hvw] at hv; exact Phase.noConfusion hv
        · rw [if_neg hvw] at hv
          rw [stealClaim_queues]
          by_cases hj : v = ⟨i, hi⟩
          · rw [if_pos hj]
            show (s.queues ⟨i, hi⟩).next ≤ (s.queues ⟨i, hi⟩).last - 1
            omega
          · rw [if_neg hj]; exact hs.drain_le v hv
      · intro v hv
        by_cases hvw : v = w
        · subst hvw
          have hv' : s.phase v ≠ Phase.drain := by
            rw [hph]; exact fun hc => Phase.noConfusion hc
          have hemp := hs.post_drain v hv'
          rw [stealClaim_queues]
          by_cases hj : v = ⟨i, hi⟩
          · exact absurd hj.symm hwne
          · rw [if_neg hj]; exact hemp
        · have hv' : s.phase v ≠ Phase.drain := by
            intro hc; apply hv
            rw [stealClaim_phase, if_neg hvw]
            exact hc
          have hemp := hs.post_drain v hv'
          rw [stealClaim_queues]
          by_cases hj : v = ⟨i, hi⟩
          · exfalso
            rw [hj] at hemp
            unfold QueueEmpty at hemp
            omega
          · rw [if_neg hj]; exact hemp
      · intro j
        rw [stealClaim_queues]
        by_cases hj : j = ⟨i, hi⟩
        · rw [if_pos hj]
          show (s.queues ⟨i, hi⟩).next ≤ ((s.queues ⟨i, hi⟩).last - 1) + 1
          omega
        · rw [if_neg hj]; exact hs.overshoot j
      · intro v iv hv j hji hjv
        rw [stealClaim_phase] at hv
        by_cases hvw : v = w
        · rw [if_pos hvw] at hv
          injection hv with h1 h2
          exact Bool.noConfusion h2
        · rw [if_neg hvw] at hv
          rw [stealClaim_queues]
          by_cases hj : j = ⟨i, hi⟩
          · exfalso
            have hemp := hs.sweep_inv v iv hv j hji hjv
            rw [hj] at hemp
            unfold QueueEmpty at hemp
            omega
          · rw [if_neg hj]
            exact hs.sweep_inv v iv hv j hji hjv
      · intro v hv j
        rw [stealClaim_phase] at hv
        by_cases hvw : v = w
        · rw [if_pos hvw] at hv; exact Phase.noConfusion hv
        · rw [if_neg hvw] at hv
          exfalso
          have hemp := hs.done_inv v hv ⟨i, hi⟩
          unfold QueueEmpty at hemp
          omega
  | sweep_restart w hph =>
      refine ⟨hs.cover, hs.last_le, ?_, ?_, hs.overshoot, ?_, ?_⟩
      · intro v hv
        rw [sweepReset_phase] at hv
        by_cases hvw : v = w
        · rw [if_pos hvw] at hv; exact Phase.noConfusion hv
        · rw [if_neg hvw] at hv; exact hs.drain_le v hv
      · intro v hv
        by_cases hvw : v = w
        · subst hvw
          refine hs.post_drain v ?_
          rw [hph]
          exact fun hc => Phase.noConfusion hc
        · refine hs.post_drain v ?_
          intro hc
          apply hv
          rw [sweepReset_phase, if_neg hvw]
          exact hc
      · intro v iv hv j hji hjv
        rw [sweepReset_phase] at hv
        by_cases hvw : v = w
        · rw [if_pos hvw] at hv
          injection hv with hiv hp
          exact absurd hji (by omega)
        · rw [if_neg hvw] at hv
          exact hs.sweep_inv v iv hv j hji hjv
      · intro v hv j
        rw [sweepReset_phase] at hv
        by_cases hvw : v = w
        · rw [if_pos hvw] at hv; exact Phase.noConfusion hv
        · rw [if_neg hvw] at hv; exact hs.done_inv v hv j
  | sweep_done w hph =>
      refine ⟨hs.cover, hs.last_le, ?_, ?_, hs.overshoot, ?_, ?_⟩
      · intro v hv
        rw [setDone_phase] at hv
        by_cases hvw : v = w
        · rw [if_pos hvw] at hv; exact Phase.noConfusion hv
        · rw [if_neg hvw] at hv; exact hs.drain_le v hv
      · intro v hv
        by_cases hvw : v = w
        · subst hvw
          refine hs.post_drain v ?_
          rw [hph]
          exact fun hc => Phase.noConfusion hc
        · refine hs.post_drain v ?_
          intro hc
          apply hv
          rw [setDone_phase, if_neg hvw]
          exact hc
      · intro v iv hv j hji hjv
        rw [setDone_phase] at hv
        by_cases hvw : v = w
        · rw [if_pos hvw] at hv; exact Phase.noConfusion hv
        · rw [if_neg hvw] at hv
          exact hs.sweep_inv v iv hv j hji hjv
      · intro v hv j
        by_cases hvw : v = w
        · by_cases hj : j = w
          · rw [hj]
            refine hs.post_drain w ?_
            rw [hph]
            exact fun hc => Phase.noConfusion hc
          · have hjw : j.val ≠ w.val := fun hc => hj (Fin.ext hc)
            exact hs.sweep_inv w T hph j j.isLt hjw
        · rw [setDone_phase, if_neg hvw] at hv
          exact hs.done_inv v hv j

/-- The initial state of a clean dispatch satisfies the invariant. -/
lemma schedInv_init (N T : ℕ) (h1 : 1 ≤ T) (hTN : T ≤ N) :
    SchedInv N (cleanInit N T) := by
  have hpos : 0 < N / T := (Nat.one_le_div_iff (by omega)).mpr hTN
  have hc : chunkSize N T = N / T := by
    unfold chunkSize; rw [if_neg (by omega)]
  have hbound : (T - 1) * (N / T) ≤ N := by
    calc (T - 1) * (N / T) ≤ T * (N / T) := Nat.mul_le_mul_right _ (by omega)
    _ = N / T * T := Nat.mul_comm _ _
    _ ≤ N := Nat.div_mul_le_self N T
  have hq : ∀ j : Fin T,
      (cleanInit N T).queues j = plannedQueue N (N / T) T j.val := by
    intro j
    show plannedQueue N (chunkSize N T) T j.val = _
    rw [hc]
  have hnl : ∀ j : Fin T,
      (plannedQueue N (N / T) T j.val).next
        ≤ (plannedQueue N (N / T) T j.val).last ∧
      (plannedQueue N (N / T) T j.val).last ≤ N := by
    intro j
    unfold plannedQueue
    by_cases hj : j.val = T - 1
    · rw [if_pos hj]
      constructor
      · show j.val * (N / T) ≤ N
        rw [hj]; exact hbound
      · exact le_refl N
    · rw [if_neg hj]
      constructor
      · show j.val * (N / T) ≤ (j.val + 1) * (N / T)
        exact Nat.mul_le_mul_right _ (by omega)
      · show (j.val + 1) * (N / T) ≤ N
        have hle : j.val + 1 ≤ T - 1 := by
          have := j.isLt; omega
        calc (j.val + 1) * (N / T) ≤ (T - 1) * (N / T) :=
              Nat.mul_le_mul_right _ hle
        _ ≤ N := hbound
  refine ⟨?_, ?_, ?_, ?_, ?_, ?_, ?_⟩
  · have hclaims : allClaims (cleanInit N T) = 0 := by
      unfold allClaims cleanInit
      simp
    rw [hclaims, zero_add]
    have hre : remaining (cleanInit N T)
        = ∑ i ∈ Finset.range T, qrange (plannedQueue N (N / T) T i) := by
      unfold remaining
      rw [show (fun j : Fin T => qrange ((cleanInit N T).queues j))
            = fun j : Fin T => qrange (plannedQueue N (N / T) T j.val) from
          funext fun j => by rw [hq j]]
      exact Fin.sum_univ_eq_sum_range
        (fun i => qrange (plannedQueue N (N / T) T i)) T
    rw [hre]
    obtain ⟨m, rfl⟩ : ∃ m, T = m + 1 := ⟨T - 1, by omega⟩
    refine planned_partition N (N / (m + 1)) m ?_
    calc m * (N / (m + 1)) ≤ (m + 1) * (N / (m + 1)) :=
          Nat.mul_le_mul_right _ (by omega)
    _ = N / (m + 1) * (m + 1) := Nat.mul_comm _ _
    _ ≤ N := Nat.div_mul_le_self N (m + 1)
  · intro j; rw [hq j]; exact (hnl j).2
  · intro w hph; rw [hq w]; exact (hnl w).1
  · intro w hph; exact absurd rfl hph
  · intro j
    rw [hq j]
    have := (hnl j).1
    omega
  · intro w i hphase j hji hjv; exact Phase.noConfusion hphase
  · intro w hph; exact Phase.noConfusion hph

/-- Every state reachable in a clean dispatch satisfies the invariant. -/
lemma schedInv_reachable {N T : ℕ} (h1 : 1 ≤ T) (hTN : T ≤ N)
    {s : SchedState T T} (h : Reachable N T s) : SchedInv N s := by
  induction h with
  | refl => exact schedInv_init N T h1 hTN
  | tail hab hbc ih => exact schedInv_step ih hbc

/-- Coverage of a clean dispatch (`T = ThreadCount ≤ N`, no fallback): in
every reachable state where all workers have finished, the multiset of all
kernel invocations is exactly `{0, …, N-1}` — every index invoked exactly
once, `N` invocations in total, regardless of the interleaving that led
there. -/
theorem dispatch_coverage_planned (N T : ℕ) (h1 : 1 ≤ T) (hTN : T ≤ N)
    (s : SchedState T T) (hr : Reachable N T s)
    (hdone : ∀ w, s.phase w = Phase.done) :
    allClaims s = Multiset.range N := by
  have hinv := schedInv_reachable h1 hTN hr
  have hrem : remaining s = 0 := by
    unfold remaining
    refine Finset.sum_eq_zero ?_
    intro j hj
    refine qrange_zero _ ?_
    refine hinv.post_drain j ?_
    rw [hdone j]
    exact fun hc => Phase.noConfusion hc
  have hcov := hinv.cover
  rw [hrem, add_zero] at hcov
  exact hcov

/-- C3 (amended): the field invariant that actually holds on every queue at
every point of a clean dispatch is `0 ≤ next`, `last ≤ N` and
`next ≤ last + 1`, with `next ≤ last` valid while the owner is still
draining; the breaking drain iteration overshoots `next` to `last + 1`
(see the counterexample).  Moreover along every step `next` only increases
and `last` only decreases. -/
theorem workqueue_field_invariant (N T : ℕ) (h1 : 1 ≤ T) (hTN : T ≤ N) :
    (∀ s : SchedState T T, Reachable N T s → ∀ j : Fin T,
        (s.queues j).last ≤ N ∧
        (s.queues j).next ≤ (s.queues j).last + 1 ∧
        (s.phase j = Phase.drain →
          (s.queues j).next ≤ (s.queues j).last)) ∧
    (∀ (Q W : ℕ) (s t : SchedState Q W), Step s t → ∀ j : Fin Q,
        (s.queues j).next ≤ (t.queues j).next ∧
        (t.queues j).last ≤ (s.queues j).last) := by
  constructor
  · intro s hr j
    have hinv := schedInv_reachable h1 hTN hr
    exact ⟨hinv.last_le j, hinv.overshoot j, hinv.drain_le j⟩
  · intro Q W s t hst j
    exact step_mono hst j

/-- Witness for the amended C3 invariant at the initial state of the
dispatch `N = 1, T = 1`. -/
theorem workqueue_field_invariant_witness :
    ((cleanInit 1 1).queues w1).last ≤ 1 ∧
    ((cleanInit 1 1).queues w1).next ≤ ((cleanInit 1 1).queues w1).last + 1 := by
  have h := (workqueue_field_invariant 1 1 (by decide) (by decide)).1
    (cleanInit 1 1) Relation.ReflTransGen.refl w1
  exact ⟨h.1, h.2.1⟩

/-- C7: behaviour of the stealing sweep.  On a peer slot with work the only
action is: decrement `last` under the lock, claim the new `last` value (the
maximum of the peer's remaining range, i.e. its tail), record it in the
claims (the completed counter), mark progress and move to the next slot; on
an empty peer the queue array and claims are untouched and the sweep just
advances.  A worker becomes `done` exactly from a completed sweep with zero
progress (`steal T false`), and in every reachable such state the entire
work supply is exhausted. -/
theorem steal_protocol (N T : ℕ) (h1 : 1 ≤ T) (hTN : T ≤ N) :
    (∀ (s : SchedState T T) (w : Fin T) (i : ℕ) (p : Bool),
        s.phase w = Phase.steal i p → ∀ (hi : i < T), i ≠ w.val →
        ((s.queues ⟨i, hi⟩).next < (s.queues ⟨i, hi⟩).last →
          Step s (stealClaim s w ⟨i, hi⟩) ∧
          (stealClaim s w ⟨i, hi⟩).claims w
            = s.claims w + {(s.queues ⟨i, hi⟩).last - 1} ∧
          (stealClaim s w ⟨i, hi⟩).queues ⟨i, hi⟩
            = { s.queues ⟨i, hi⟩ with
                last := (s.queues ⟨i, hi⟩).last - 1 } ∧
          (stealClaim s w ⟨i, hi⟩).phase w = Phase.steal (i + 1) true ∧
          ((s.queues ⟨i, hi⟩).last - 1) ∈ qrange (s.queues ⟨i, hi⟩) ∧
          (∀ x ∈ qrange (s.queues ⟨i, hi⟩),
            x ≤ (s.queues ⟨i, hi⟩).last - 1) ∧
          ((s.queues ⟨i, hi⟩).last - 1)
            ∉ qrange ((stealClaim s w ⟨i, hi⟩).queues ⟨i, hi⟩)) ∧
        ((s.queues ⟨i, hi⟩).last ≤ (s.queues ⟨i, hi⟩).next →
          Step s (stealAdvance s w i p) ∧
          (stealAdvance s w i p).queues = s.queues ∧
          (stealAdvance s w i p).claims = s.claims ∧
          (stealAdvance s w i p).phase w = Phase.steal (i + 1) p)) ∧
    (∀ (s : SchedState T T) (w : Fin T), s.phase w = Phase.steal T false →
        Step s (setDone s w) ∧ (setDone s w).phase w = Phase.done) ∧
    (∀ (s t : SchedState T T), Step s t → ∀ w : Fin T,
        s.phase w ≠ Phase.done → t.phase w = Phase.done →
        s.phase w = Phase.steal T false) ∧
    (∀ s : SchedState T T, Reachable N T s → ∀ w : Fin T,
        (s.phase w = Phase.steal T false ∨ s.phase w = Phase.done) →
        ∀ j : Fin T, QueueEmpty (s.queues j)) := by
  refine ⟨?_, ?_, ?_, ?_⟩
  · intro s w i p hph hi hne
    constructor
    · intro hwork
      refine ⟨Step.steal_hit s w i p hph hi hne hwork, ?_, ?_, ?_, ?_, ?_, ?_⟩
      · rw [stealClaim_claims, if_pos rfl]
      · rw [stealClaim_queues, if_pos rfl]
      · rw [stealClaim_phase, if_pos rfl]
      · rw [mem_qrange]; omega
      · intro x hx; rw [mem_qrange] at hx; omega
      · rw [stealClaim_queues, if_pos rfl]
        simp only [mem_qrange]
        omega
    · intro hempty
      refine ⟨Step.steal_miss s w i p hph hi hne hempty, rfl, rfl, ?_⟩
      rw [stealAdvance_phase, if_pos rfl]
  · intro s w hph
    exact ⟨Step.sweep_done s w hph, by rw [setDone_phase, if_pos rfl]⟩
  · intro s t hst w hnd hd
    cases hst with
    | drain_claim w' hw hph hlt => exact absurd hd hnd
    | drain_break w' hw hph hge =>
        rw [drainBreak_phase] at hd
        by_cases hvw : w = w'
        · rw [if_pos hvw] at hd; exact Phase.noConfusion hd
        · rw [if_neg hvw] at hd; exact absurd hd hnd
    | steal_self w' p hph hi =>
        rw [stealAdvance_phase] at hd
        by_cases hvw : w = w'
        · rw [if_pos hvw] at hd; exact Phase.noConfusion hd
        · rw [if_neg hvw] at hd; exact absurd hd hnd
    | steal_miss w' i p hph hi hne hempty =>
        rw [stealAdvance_phase] at hd
        by_cases hvw : w = w'
        · rw [if_pos hvw] at hd; exact Phase.noConfusion hd
        · rw [if_neg hvw] at hd; exact absurd hd hnd
    | steal_hit w' i p hph hi hne hwork =>
        rw [stealClaim_phase] at hd
        by_cases hvw : w = w'
        · rw [if_pos hvw] at hd; exact Phase.noConfusion hd
        · rw [if_neg hvw] at hd; exact absurd hd hnd
    | sweep_restart w' hph =>
        rw [sweepReset_phase] at hd
        by_cases hvw : w = w'
        · rw [if_pos hvw] at hd; exact Phase.noConfusion hd
        · rw [if_neg hvw] at hd; exact absurd hd hnd
    | sweep_done w' hph =>
        by_cases hvw : w = w'
        · subst hvw; exact hph
        · rw [setDone_phase, if_neg hvw] at hd; exact absurd hd hnd
  · intro s hr w hcase j
    have hinv := schedInv_reachable h1 hTN hr
    cases hcase with
    | inl hsteal =>
        by_cases hj : j = w
        · subst hj
          refine hinv.post_drain j ?_
          rw [hsteal]
          exact fun hc => Phase.noConfusion hc
        · have hjw : j.val ≠ w.val := fun hc => hj (Fin.ext hc)
          exact hinv.sweep_inv w T hsteal j j.isLt hjw
    | inr hdone => exact hinv.done_inv w hdone j

/-- Witness for C7 on a concrete two-worker state: worker 0 (own queue
drained, sweep at slot 1 with no progress yet) steals the tail index 1 of
worker 1's queue `[0, 2)`. -/
theorem steal_protocol_witness :
    Step stealDemo
      (stealClaim stealDemo ⟨0, Nat.zero_lt_two⟩ ⟨1, Nat.one_lt_two⟩) ∧
    (stealClaim stealDemo ⟨0, Nat.zero_lt_two⟩ ⟨1, Nat.one_lt_two⟩).claims
        ⟨0, Nat.zero_lt_two⟩ = {1} ∧
    (1 : ℕ) ∈ qrange (stealDemo.queues ⟨1, Nat.one_lt_two⟩) := by
  have h := ((steal_protocol 5 2 (by decide) (by decide)).1 stealDemo
    ⟨0, Nat.zero_lt_two⟩ 1 false (by decide) Nat.one_lt_two (by decide)).1
    (by decide)
  refine ⟨h.1, ?_, h.2.2.2.2.1⟩
  rw [h.2.1]
  decide

/-- C1: evaluation of the code at the failing input `N = 1` with compiled
`ThreadCount = 2`.  The fallback reduces `num_thread` to 1 (so only
workqueue slot 0 is initialised, to the planned `⟨0, 1, 0⟩`), but the
workers' stealing sweep iterates up to `common.num_thread`, which was
stored at line 134 *before* the reduction and still reads 2.  With residue
`⟨5, 7, 0⟩` in the uninitialised slot 1, the single worker finishes a
complete run having invoked the kernel three times — on the indices 0, 6
and 5 — instead of exactly once on index 0.  (With a nonzero residue in the
`lock` word the worker instead spins forever.) -/
theorem fallback_sweep_uninitialized_queue_bug :
    buggyInit.queues ⟨0, Nat.zero_lt_two⟩
      = plannedQueue 1 (chunkSize 1 2) (effThreads 1 2) 0 ∧
    effThreads 1 2 = 1 ∧
    Relation.ReflTransGen Step buggyInit buggyFinal ∧
    (∀ v : Fin 1, buggyFinal.phase v = Phase.done) ∧
    allClaims buggyFinal = {0, 6, 5} ∧
    Multiset.card (allClaims buggyFinal) = 3 ∧
    allClaims buggyFinal ≠ Multiset.range 1 := by
  refine ⟨by decide, by decide, ?_, by decide, by decide, by decide, by decide⟩
  have h1 : Step buggyInit bs1 :=
    Step.drain_claim buggyInit w1 (by decide) rfl (by decide)
  have h2 : Step bs1 bs2 :=
    Step.drain_break bs1 w1 (by decide) rfl (by decide)
  have h3 : Step bs2 bs3 :=
    Step.steal_self bs2 w1 false (by decide) (by decide)
  have h4 : Step bs3 bs4 :=
    Step.steal_hit bs3 w1 1 false (by decide) (by decide) (by decide)
      (by decide)
  have h5 : Step bs4 bs5 := Step.sweep_restart bs4 w1 (by decide)
  have h6 : Step bs5 bs6 :=
    Step.steal_self bs5 w1 false (by decide) (by decide)
  have h7 : Step bs6 bs7 :=
    Step.steal_hit bs6 w1 1 false (by decide) (by decide) (by decide)
      (by decide)
  have h8 : Step bs7 bs8 := Step.sweep_restart bs7 w1 (by decide)
  have h9 : Step bs8 bs9 :=
    Step.steal_self bs8 w1 false (by decide) (by decide)
  have h10 : Step bs9 bs10 :=
    Step.steal_miss bs9 w1 1 false (by decide) (by decide) (by decide)
      (by decide)
  have h11 : Step bs10 buggyFinal := Step.sweep_done bs10 w1 (by decide)
  exact Relation.ReflTransGen.head h1 (.head h2 (.head h3 (.head h4 (.head h5
    (.head h6 (.head h7 (.head h8 (.head h9 (.head h10
      (.head h11 .refl))))))))))

end ParallelVectorize
